import Mathlib

/-!
# Verification of the oclapi view mixins (`oclapi/views.py`)

This file gives a shallow embedding, in Lean 4, of the REST view mixins of
the oclapi repository (file `django-nonrel/ocl/oclapi/views.py`):

* `PathWalkerMixin.get_parent_in_path` — slicing a hierarchical URL path;
* `BaseAPIView.get_object` and `BaseAPIView.destroy` — object lookup and
  soft delete;
* `SubResourceMixin.initialize` / `get_queryset` — parent-resource
  resolution and permission-scoped querysets;
* `VersionedResourceChildMixin.initialize` / `get_queryset`;
* `ResourceVersionMixin.initialize` / `get_queryset`.

Python strings are modelled as `List Char`; a Python `int` is an `Int`;
a call that can raise an exception (`str.rindex` raising `ValueError`,
`get_object_or_404` raising `Http404`, attribute access on `None`) returns
an `Option`.  Django querysets over a concrete set of rows are modelled as
`List`s of rows, and `QuerySet.filter` as `List.filter`.
-/

set_option autoImplicit false

namespace OclApi

/-- A URL path (`request.path_info`), as a list of characters. -/
abbrev Path := List Char

/-! ## `PathWalkerMixin.get_parent_in_path`

The Python code (views.py lines 17-30) is:

```
def get_parent_in_path(self, path_info, levels=1):
    last_index = len(path_info) - 1
    last_slash = path_info.rindex('/')
    if last_slash == last_index:
        last_slash = path_info.rindex('/', 0, last_index)
    path_info = path_info[0:last_slash+1]
    if levels > 1:
        i = 1
        while i < levels:
            last_index = len(path_info) - 1
            last_slash = path_info.rindex('/', 0, last_index)
            path_info = path_info[0:last_slash+1]
            i += 1
    return path_info
```
-/

/-- Last index of `c` in the list, or `none` when `c` does not occur.
`rlast s c = some i` means `s` is `u ++ c :: v` with `c ∉ v` and `i = u.length`. -/
def rlast : List Char → Char → Option Nat
  | [], _ => none
  | a :: as, c =>
    match rlast as c with
    | some i => some (i + 1)
    | none => if a = c then some 0 else none

/-- Python `s.rindex(c, 0, stop)`: the last index `i < stop` with `s[i] = c`.
`none` models the `ValueError` raised when there is no occurrence.
(The `stop` bounds used by `get_parent_in_path` are `len(s)` and `len(s) - 1`;
for the empty string Python computes `last_index = -1`, and there the search
range is empty, which the `Nat` truncation `0` reproduces.) -/
def rindexIn (s : List Char) (c : Char) (stop : Nat) : Option Nat :=
  rlast (s.take stop) c

/-- The code before the `while` loop of `get_parent_in_path`: strip the last
path segment, ignoring one trailing slash. -/
def parentStep (p : Path) : Option Path :=
  let lastIndex := p.length - 1
  match rindexIn p '/' p.length with
  | none => none
  | some lastSlash =>
    if lastSlash = lastIndex then
      match rindexIn p '/' lastIndex with
      | none => none
      | some ls2 => some (p.take (ls2 + 1))
    else
      some (p.take (lastSlash + 1))

/-- The body of the `while` loop of `get_parent_in_path`:
`rindex('/', 0, len(p) - 1)` followed by the slice `p[0:last_slash+1]`. -/
def loopStep (p : Path) : Option Path :=
  let lastIndex := p.length - 1
  match rindexIn p '/' lastIndex with
  | none => none
  | some lastSlash => some (p.take (lastSlash + 1))

/-- `n` iterations of the `while` loop body. -/
def loopIter : Path → Nat → Option Path
  | p, 0 => some p
  | p, n + 1 => (loopStep p).bind (fun q => loopIter q n)

/-- `PathWalkerMixin.get_parent_in_path(path_info, levels)`.  The loop `i = 1;
while i < levels` runs `levels - 1` times, and only when `levels > 1`. -/
def get_parent_in_path (path_info : Path) (levels : Int) : Option Path :=
  (parentStep path_info).bind
    (fun p => if levels > 1 then loopIter p (levels - 1).toNat else some p)

/-- One application of `get_parent_in_path` at its default `levels = 1`,
lifted to `Option` so that applications can be chained. -/
def stepOnce (p : Option Path) : Option Path :=
  p.bind (fun q => get_parent_in_path q 1)

/-! ## Well-formed hierarchical paths

The mixins assume trailing-slash-delimited hierarchical URL paths such as
`/orgs/:org/sources/:source/`.  `pathOf segs` builds the slash-terminated
path with segment list `segs`; dropping the final slash gives the variant
without a trailing slash. -/

/-- A well-formed path segment: non-empty and slash-free. -/
def segWF (s : List Char) : Prop := s ≠ [] ∧ '/' ∉ s

instance (s : List Char) : Decidable (segWF s) := by
  unfold segWF
  infer_instance

/-- The slash-terminated hierarchical path with the given segments:
`pathOf [a, b] = "/a/b/"` and `pathOf [] = "/"`. -/
def pathOf (segs : List (List Char)) : Path :=
  '/' :: (segs.map (fun s => s ++ [ '/' ])).flatten

/-- A path with at most one trailing slash removed. -/
def stripTrailing (p : Path) : Path :=
  if p.getLast? = some '/' then p.dropLast else p

/-- Number of slashes of `p`, not counting a trailing one. -/
def slashesNT (p : Path) : Nat := (stripTrailing p).count '/'

/-! ## The data model

Rows handled by the querysets carry the fields the mixins read or write:
the primary key `id`, the `mnemonic` used as default `pk_field`, the
permission fields `owner` and `parent_id`, the parent pointer
(`parent_type`, `parent_id`), the version pointer (`versioned_object_type`,
`versioned_object_id`) and the `is_active` flag used by the soft delete.
Entity primary keys are strings; content types are numbered. -/

/-- A stored row, as seen by the mixins' querysets. -/
structure Obj where
  id : String
  mnemonic : Option String
  owner : Option String
  parent_type : Nat
  parent_id : String
  is_active : Bool
  versioned_object_type : Nat
  versioned_object_id : String
deriving DecidableEq

/-- A resolved resource object: its model's content type (`ctype`, the id that
`ContentType.objects.get_for_model` returns), its primary key `rid`, and its
`versioned_object` attribute — `some` exactly when the Python object has the
attribute (i.e. it is a resource version), in which case it points to the
underlying versioned resource. -/
inductive Resource where
  | mk (ctype : Nat) (rid : String) (versionedObject : Option Resource)

def Resource.decEq : (a b : Resource) → Decidable (a = b)
  | .mk c1 r1 v1, .mk c2 r2 v2 =>
    have hv : Decidable (v1 = v2) :=
      match v1, v2 with
      | none, none => isTrue rfl
      | some x, some y =>
        match Resource.decEq x y with
        | isTrue h => isTrue (by rw [h])
        | isFalse h => isFalse (fun hh => h (Option.some.inj hh))
      | none, some _ => isFalse (fun hh => Option.noConfusion hh)
      | some _, none => isFalse (fun hh => Option.noConfusion hh)
    match Nat.decEq c1 c2, String.decEq r1 r2, hv with
    | isTrue h1, isTrue h2, isTrue h3 => isTrue (by rw [h1, h2, h3])
    | isFalse h1, _, _ => isFalse (fun hh => h1 (by cases hh; rfl))
    | _, isFalse h2, _ => isFalse (fun hh => h2 (by cases hh; rfl))
    | _, _, isFalse h3 => isFalse (fun hh => h3 (by cases hh; rfl))

instance : DecidableEq Resource := Resource.decEq

def Resource.ctype : Resource → Nat
  | .mk c _ _ => c

def Resource.rid : Resource → String
  | .mk _ r _ => r

def Resource.versionedObject : Resource → Option Resource
  | .mk _ _ v => v

/-- A user profile (`request.user.get_profile()`): the resource it denotes
(it can be assigned to `parent_resource`) plus its organizations. -/
structure UserProfile where
  resource : Resource
  organizations : List String
deriving DecidableEq

/-- `request.user`: primary key plus the result of `get_profile()` when the
user object has that attribute (a missing profile is `none`). -/
structure UserT where
  id : String
  profile : Option UserProfile
deriving DecidableEq

/-! ## `BaseAPIView.get_object` and `BaseAPIView.destroy` -/

/-- Outcome of `BaseAPIView.get_object`: the object, or the exception that
`get_object_or_404` (`Http404`, `MultipleObjectsReturned`) or
`check_object_permissions` (`PermissionDenied`) raises. -/
inductive GetResult where
  | ok (obj : Obj)
  | notFound
  | multipleReturned
  | permissionDenied
deriving DecidableEq

/-- `BaseAPIView.get_object` (views.py lines 56-71).  `queryset` is the value
of `self.filter_queryset(self.get_queryset())`; `pk_value` reads the attribute
named by `self.pk_field` off a row; `check_object_permissions` is `true` when
the framework's object-permission check passes.  `QuerySet.get` (inside
`get_object_or_404`) returns the single match, raises `Http404` on no match
and `MultipleObjectsReturned` on several. -/
def BaseAPIView_get_object (queryset : List Obj) (kwargs : List (String × String))
    (lookup_field : String) (pk_value : Obj → Option String)
    (check_object_permissions : Obj → Bool) : GetResult :=
  -- lookup = self.kwargs.get(self.lookup_field, None)
  let lookup : Option String := kwargs.lookup lookup_field
  -- obj = get_object_or_404(queryset, **{self.pk_field: lookup})
  match queryset.filter (fun o => pk_value o == lookup) with
  | [] => GetResult.notFound
  | [obj] =>
    -- self.check_object_permissions(self.request, obj)
    if check_object_permissions obj then GetResult.ok obj else GetResult.permissionDenied
  | _ => GetResult.multipleReturned

/-- `BaseAPIView.destroy` (views.py lines 73-77): fetch the object, clear its
`is_active` flag and save.  `store` is the backing collection of rows;
`obj.save()` rewrites the row whose primary key equals the object's.  The
result is the HTTP status together with the new store; `none` means the
exception from `get_object` propagated. -/
def BaseAPIView_destroy (queryset : List Obj) (kwargs : List (String × String))
    (lookup_field : String) (pk_value : Obj → Option String)
    (check_object_permissions : Obj → Bool) (store : List Obj) : Option (Nat × List Obj) :=
  match BaseAPIView_get_object queryset kwargs lookup_field pk_value check_object_permissions with
  | GetResult.ok obj =>
    -- obj.is_active = False; obj.save()
    let obj2 : Obj := { obj with is_active := false }
    some (204, store.map (fun x => if x.id == obj2.id then obj2 else x))
  | _ => none

/-! ## `SubResourceMixin` -/

/-- The request-independent context of a view: whether the view class is a
`ListModelMixin` or `CreateModelMixin`, and the URL resolver —
`get_object_for_path` (views.py lines 32-36) re-dispatches a path through
`resolve()` and the target view's `get_object`; `none` is a raised
`Http404`/`PermissionDenied`. -/
structure ViewEnv where
  isListOrCreate : Bool
  resolvePath : Path → Option Resource

/-- The attributes of a `SubResourceMixin` view after `initialize`. -/
structure SubState where
  user : Option UserT
  userprofile : Option UserProfile
  user_is_self : Bool
  parent_path_info : Option Path
  parent_resource : Option Resource
deriving DecidableEq

/-- `SubResourceMixin.initialize` (views.py lines 93-105).  `user` is
`request.user` (`none` for a user object that is falsy or lacks
`get_profile`), `user_is_self` the popped kwarg.  In the `user_is_self`
branch Python assigns the profile object itself to `parent_resource`; here
its resource view is stored.  `none` models a propagated exception
(`ValueError` from `rindex`, or an error from `get_object_for_path`). -/
def initSubResource (env : ViewEnv) (user : Option UserT) (user_is_self : Bool)
    (path_info_segment : Path) : Option SubState :=
  let userprofile : Option UserProfile := user.bind (fun u => u.profile)
  if user_is_self && userprofile.isSome then
    some { user := user, userprofile := userprofile, user_is_self := user_is_self,
           parent_path_info := none,
           parent_resource := userprofile.map (fun up => up.resource) }
  else
    -- levels = 1 if isinstance(self, ListModelMixin) or isinstance(self, CreateModelMixin) else 2
    let levels : Int := if env.isListOrCreate then 1 else 2
    match get_parent_in_path path_info_segment levels with
    | none => none
    | some pp =>
      -- if self.parent_path_info and '/' != self.parent_path_info:
      if pp ≠ [] ∧ pp ≠ [ '/' ] then
        match env.resolvePath pp with
        | none => none
        | some r =>
          some { user := user, userprofile := userprofile, user_is_self := user_is_self,
                 parent_path_info := some pp, parent_resource := some r }
      else
        some { user := user, userprofile := userprofile, user_is_self := user_is_self,
               parent_path_info := some pp, parent_resource := none }

/-- `SubResourceMixin.get_queryset` (views.py lines 107-125).  `base_queryset`
is `super(SubResourceMixin, self).get_queryset()` (the view's base queryset)
and `base_or_clause` the class attribute of `Q`-clauses, as row predicates.
The `reduce(lambda x, y: x | y, ...)` branch and the single-clause branch
both filter by the disjunction of `or_clauses`. -/
def SubResourceMixin_get_queryset (st : SubState) (base_or_clause : List (Obj → Bool))
    (base_queryset : List Obj) : List Obj :=
  let or_clauses : List (Obj → Bool) :=
    (match st.user with
     | some u => [fun o => o.owner == some u.id]        -- Q(owner=self.user)
     | none => [])
    ++ (match st.userprofile with
        | some up => up.organizations.map (fun x => (fun o => o.parent_id == x))
        | none => [])                                   -- Q(parent_id=x) per organization
    ++ base_or_clause
  let queryset :=
    if or_clauses.isEmpty then base_queryset
    else base_queryset.filter (fun o => or_clauses.any (fun q => q o))
  match st.parent_resource with
  | none => queryset
  | some pr0 =>
    -- if hasattr(self.parent_resource, 'versioned_object'):
    --     self.parent_resource = self.parent_resource.versioned_object
    let pr := pr0.versionedObject.getD pr0
    -- queryset.filter(parent_type__pk=parent_resource_type.id, parent_id=self.parent_resource.id)
    queryset.filter (fun o => o.parent_type == pr.ctype && o.parent_id == pr.rid)

/-- The value of `self.parent_resource` after `SubResourceMixin.get_queryset`
returns (the method replaces a resource version by its versioned object). -/
def SubResourceMixin_parent_after (st : SubState) : Option Resource :=
  st.parent_resource.map (fun pr0 => pr0.versionedObject.getD pr0)

/-! ## `VersionedResourceChildMixin` -/

/-- Context of a `VersionedResourceChildMixin` view.  `urlKwargPresent` is
`self.model.get_url_kwarg() in kwargs`; `latestVersionOf` is the value of
`ResourceVersionModel.get_latest_version_of(x)` — that model function is not
among the sources here, so it stays an oracle parameter of the embedding
(it is applied to `none` when `self.parent_resource` is `None`). -/
structure VRCEnv where
  isListOrCreate : Bool
  urlKwargPresent : Bool
  resolvePath : Path → Option Resource
  latestVersionOf : Option Resource → Option Resource

/-- The attributes of a `VersionedResourceChildMixin` view after
`initialize`. -/
structure VRCState where
  parent_path_info : Option Path
  parent_resource : Option Resource
  parent_resource_version : Option Resource
deriving DecidableEq

/-- The `levels` value computed by `VersionedResourceChildMixin.initialize`:
`levels = 1 if self.model.get_url_kwarg() in kwargs else 0`, then
`levels = levels + 1 if isinstance(self, ListModelMixin) or
isinstance(self, CreateModelMixin) else levels + 2`. -/
def vrcLevels (env : VRCEnv) : Int :=
  let levels0 : Int := if env.urlKwargPresent then 1 else 0
  if env.isListOrCreate then levels0 + 1 else levels0 + 2

/-- `VersionedResourceChildMixin.initialize` (views.py lines 139-150).  Note
the method does not call `super().initialize`. -/
def initVersionedChild (env : VRCEnv) (path_info_segment : Path) : Option VRCState :=
  match get_parent_in_path path_info_segment (vrcLevels env) with
  | none => none
  | some pp =>
    -- self.parent_resource = None
    -- if self.parent_path_info and '/' != self.parent_path_info:
    --     self.parent_resource = self.get_object_for_path(...)
    let parentOpt : Option (Option Resource) :=
      if pp ≠ [] ∧ pp ≠ [ '/' ] then (env.resolvePath pp).map some else some none
    match parentOpt with
    | none => none
    | some po =>
      match po with
      | some r =>
        match r.versionedObject with
        | some vo =>
          -- hasattr(self.parent_resource, 'versioned_object') holds:
          some { parent_path_info := some pp, parent_resource := some vo,
                 parent_resource_version := some r }
        | none =>
          some { parent_path_info := some pp, parent_resource := some r,
                 parent_resource_version := env.latestVersionOf (some r) }
      | none =>
        -- hasattr(None, 'versioned_object') is false:
        some { parent_path_info := some pp, parent_resource := none,
               parent_resource_version := env.latestVersionOf none }

/-- Python truthiness of the lookup kwarg (`if lookup:`): present and
non-empty. -/
def lookupTruthy : Option String → Bool
  | none => false
  | some s => s != ""

/-- `VersionedResourceChildMixin.get_queryset` (views.py lines 152-159).
`child_list` reads the attribute named by `self.child_list_attribute` off a
version object (`none` is a `None` attribute value, absorbed by `or []`);
`model_objects` is `self.model.objects`; `base_queryset` is
`super(SubResourceMixin, self).get_queryset()` — the `super` call starts
*above* `SubResourceMixin` in the MRO, so no owner/organization filtering is
applied.  `none` models the `AttributeError` of `getattr(None, ...)` when
`parent_resource_version` is `None`. -/
def VRCM_get_queryset (st : VRCState) (child_list : Resource → Option (List String))
    (kwargs : List (String × String)) (lookup_field : String)
    (model_objects : List Obj) (base_queryset : List Obj) : Option (List Obj) :=
  let lookup := kwargs.lookup lookup_field
  if lookupTruthy lookup then
    -- return self.model.objects.filter(id=lookup)
    some (model_objects.filter (fun o => some o.id == lookup))
  else
    match st.parent_resource_version with
    | none => none
    | some v =>
      -- all_children = getattr(self.parent_resource_version, self.child_list_attribute) or []
      let all_children := (child_list v).getD []
      -- queryset = super(SubResourceMixin, self).get_queryset()
      -- queryset = queryset.filter(id__in=all_children)
      some (base_queryset.filter (fun o => all_children.contains o.id))

/-! ## `ResourceVersionMixin` -/

/-- The attributes of a `ResourceVersionMixin` view after `initialize`. -/
structure RVState where
  versioned_object_path_info : Option Path
  versioned_object : Option Resource
deriving DecidableEq

/-- `ResourceVersionMixin.initialize` (views.py lines 171-180): resolve the
versioned object one path segment up (`get_parent_in_path` with its default
`levels=1`). -/
def initResourceVersion (env : ViewEnv) (path_info_segment : Path) : Option RVState :=
  match get_parent_in_path path_info_segment 1 with
  | none => none
  | some vp =>
    match env.resolvePath vp with
    | none => none
    | some vo => some { versioned_object_path_info := some vp, versioned_object := some vo }

/-- `ResourceVersionMixin.get_queryset`: scope the base queryset to versions
of `self.versioned_object` (`none` models the failure of
`ContentType.objects.get_for_model(None)` when the attribute is unset). -/
def RVM_get_queryset (st : RVState) (base_queryset : List Obj) : Option (List Obj) :=
  match st.versioned_object with
  | none => none
  | some vo =>
    some (base_queryset.filter
      (fun o => o.versioned_object_type == vo.ctype && o.versioned_object_id == vo.rid))

/-! ## Concrete instances (used to instantiate the theorems below) -/

/-- A source resource, content type `3`, primary key `s1`. -/
def resSource : Resource := Resource.mk 3 "s1" none

/-- A source version, whose `versioned_object` is `resSource`. -/
def resSourceVersion : Resource := Resource.mk 4 "sv1" (some resSource)

/-- A concept row under source `s1`, owned by user `u1`. -/
def objA : Obj :=
  { id := "c1", mnemonic := some "m1", owner := some "u1", parent_type := 3,
    parent_id := "s1", is_active := true, versioned_object_type := 4,
    versioned_object_id := "sv1" }

/-- A row under a different parent, owned by a different user. -/
def objB : Obj :=
  { id := "c2", mnemonic := some "m2", owner := some "u2", parent_type := 3,
    parent_id := "s2", is_active := true, versioned_object_type := 5,
    versioned_object_id := "x" }

/-- A user `u1` whose profile is in organization `org1`. -/
def userU : UserT :=
  { id := "u1",
    profile := some { resource := Resource.mk 9 "u1" none, organizations := ["org1"] } }

/-- A `SubResourceMixin` state as left by a successful `initialize`. -/
def subStA : SubState :=
  { user := some userU, userprofile := userU.profile, user_is_self := false,
    parent_path_info := some [ '/', 'o', '/' ], parent_resource := some resSourceVersion }

/-- A `VersionedResourceChildMixin` state as left by a successful
`initialize` that resolved the version `resSourceVersion`. -/
def vrcStA : VRCState :=
  { parent_path_info := some [ '/', 'o', '/' ], parent_resource := some resSource,
    parent_resource_version := some resSourceVersion }

/-- A view context resolving the path `/o/` to `resSource`. -/
def envA : ViewEnv :=
  { isListOrCreate := false,
    resolvePath := fun p => if p = [ '/', 'o', '/' ] then some resSource else none }

/-- A versioned-child view context resolving the path `/o/` to the version
`resSourceVersion`. -/
def vrcEnvA : VRCEnv :=
  { isListOrCreate := true, urlKwargPresent := false,
    resolvePath := fun p => if p = [ '/', 'o', '/' ] then some resSourceVersion else none,
    latestVersionOf := fun _ => none }

/-! ## Lemmas about `rlast` -/

theorem rlast_eq_none_iff (l : List Char) (c : Char) : rlast l c = none ↔ c ∉ l := by
  induction l with
  | nil => simp [rlast]
  | cons a as ih =>
    rw [rlast]
    cases h : rlast as c with
    | some i =>
      have hmem : c ∈ as := by
        by_contra hc
        rw [ih.mpr hc] at h
        exact Option.noConfusion h
      simp [hmem]
    | none =>
      have hnm : c ∉ as := ih.mp h
      by_cases hac : a = c
      · subst hac
        simp
      · simp only [if_neg hac]
        simp only [List.mem_cons, not_or, true_iff]
        exact ⟨fun hca => hac hca.symm, hnm⟩

theorem rlast_concat (u v : List Char) (c : Char) (hv : c ∉ v) :
    rlast (u ++ c :: v) c = some u.length := by
  induction u with
  | nil =>
    rw [List.nil_append, rlast, (rlast_eq_none_iff v c).mpr hv, if_pos rfl]
    rfl
  | cons a u ih =>
    rw [List.cons_append, rlast, ih]
    rfl

theorem rlast_some (l : List Char) (c : Char) (i : Nat) (h : rlast l c = some i) :
    ∃ u v, l = u ++ c :: v ∧ c ∉ v ∧ i = u.length := by
  induction l generalizing i with
  | nil => exact Option.noConfusion h
  | cons a as ih =>
    rw [rlast] at h
    cases has : rlast as c with
    | some j =>
      rw [has] at h
      obtain ⟨u, v, rfl, hv, rfl⟩ := ih j has
      exact ⟨a :: u, v, rfl, hv, by cases h; rfl⟩
    | none =>
      rw [has] at h
      by_cases hac : a = c
      · subst hac
        rw [if_pos rfl] at h
        cases h
        exact ⟨[], as, rfl, (rlast_eq_none_iff as a).mp has, rfl⟩
      · rw [if_neg hac] at h
        exact Option.noConfusion h

/-! ## Take helpers -/

theorem take_decomp (u v : List Char) (c : Char) :
    (u ++ c :: v).take (u.length + 1) = u ++ [c] := by
  rw [List.take_append_eq_append_take, List.take_of_length_le (by omega)]
  simp

/-! ## Lemmas about `pathOf` -/

theorem pathOf_nil : pathOf [] = [ '/' ] := rfl

theorem pathOf_cons (s : List Char) (segs : List (List Char)) :
    pathOf (s :: segs) = '/' :: (s ++ pathOf segs) := by
  simp [pathOf]

theorem pathOf_concat (segs : List (List Char)) (t : List Char) :
    pathOf (segs ++ [t]) = pathOf segs ++ (t ++ [ '/' ]) := by
  simp [pathOf]

theorem pathOf_ends_slash (segs : List (List Char)) :
    ∃ B, pathOf segs = B ++ [ '/' ] := by
  rcases List.eq_nil_or_concat' segs with rfl | ⟨pre, t, rfl⟩
  · exact ⟨[], rfl⟩
  · exact ⟨pathOf pre ++ t, by rw [pathOf_concat, List.append_assoc]⟩

theorem pathOf_getLast (segs : List (List Char)) :
    (pathOf segs).getLast? = some '/' := by
  obtain ⟨B, hB⟩ := pathOf_ends_slash segs
  rw [hB, List.getLast?_concat]

theorem count_pathOf (S : List (List Char)) (hwf : ∀ s ∈ S, segWF s) :
    (pathOf S).count '/' = S.length + 1 := by
  induction S with
  | nil => rfl
  | cons s ss ih =>
    rw [pathOf_cons]
    have hs : s.count '/' = 0 :=
      List.count_eq_zero_of_not_mem (hwf s (by simp)).2
    have hss := ih (fun x hx => hwf x (by simp [hx]))
    simp [List.count_cons, List.count_append, hs, hss]

theorem pathOf_eq_root_iff (S : List (List Char)) (hwf : ∀ s ∈ S, segWF s) :
    pathOf S = [ '/' ] ↔ S = [] := by
  constructor
  · intro h
    rcases S with _ | ⟨s, ss⟩
    · rfl
    · rw [pathOf_cons] at h
      have hlen := congrArg List.length h
      simp only [List.length_cons, List.length_append, List.length_nil] at hlen
      have hne := (hwf s (by simp)).1
      have hz : s.length = 0 := by omega
      exact absurd (List.length_eq_zero.mp hz) hne
  · rintro rfl
    rfl

/-! ## Evaluating `parentStep` and `loopStep` -/

theorem rlast_concat_self (q : List Char) (c : Char) : rlast (q ++ [c]) c = some q.length := by
  have h : q ++ [c] = q ++ c :: [] := rfl
  rw [h, rlast_concat q [] c (by simp)]

/-- On a slash-terminated path the first `rindex` finds the trailing slash,
so `parentStep` re-searches before it: it reduces to the last slash of `q`. -/
theorem parentStep_concat_eval (q : List Char) :
    parentStep (q ++ [ '/' ]) =
      match rlast q '/' with
      | none => none
      | some i => some ((q ++ [ '/' ]).take (i + 1)) := by
  have htake : (q ++ [ '/' ]).take q.length = q := List.take_left q [ '/' ]
  have htake1 : List.take (q.length + 1) (q ++ [ '/' ]) = q ++ [ '/' ] :=
    List.take_of_length_le (by simp)
  rw [parentStep]
  simp only [rindexIn, List.take_length, List.length_append, List.length_cons,
    List.length_nil, Nat.zero_add, Nat.add_sub_cancel, htake1, rlast_concat_self,
    if_true, htake]

/-- `loopStep` searches strictly before the final character, so on a
slash-terminated path it agrees with `parentStep`. -/
theorem loopStep_concat_eval (q : List Char) :
    loopStep (q ++ [ '/' ]) =
      match rlast q '/' with
      | none => none
      | some i => some ((q ++ [ '/' ]).take (i + 1)) := by
  have htake : (q ++ [ '/' ]).take q.length = q := List.take_left q [ '/' ]
  rw [loopStep]
  simp only [rindexIn, List.length_append, List.length_cons, List.length_nil,
    Nat.zero_add, Nat.add_sub_cancel, htake]

theorem parentStep_eq_loopStep (q : List Char) :
    parentStep (q ++ [ '/' ]) = loopStep (q ++ [ '/' ]) := by
  rw [parentStep_concat_eval, loopStep_concat_eval]

/-- On a path that does not end with a slash, `parentStep` keeps the first
`rindex` result. -/
theorem parentStep_noslash_eval (p : Path) (hl : p.getLast? ≠ some '/') :
    parentStep p =
      match rlast p '/' with
      | none => none
      | some i => some (p.take (i + 1)) := by
  cases h : rlast p '/' with
  | none =>
    rw [parentStep]
    simp only [rindexIn, List.take_length, h]
  | some i =>
    obtain ⟨u, v, rfl, hv, rfl⟩ := rlast_some p '/' i h
    have hvne : v ≠ [] := by
      rintro rfl
      exact hl (List.getLast?_concat u)
    have hne : u.length ≠ (u ++ '/' :: v).length - 1 := by
      have := List.length_pos.mpr hvne
      simp only [List.length_append, List.length_cons]
      omega
    rw [parentStep]
    simp only [rindexIn, List.take_length, h, if_neg hne]

theorem exists_concat_of_getLast (p : Path) (c : Char) (hl : p.getLast? = some c) :
    ∃ q, p = q ++ [c] := by
  rcases List.eq_nil_or_concat' p with rfl | ⟨q, b, rfl⟩
  · exact Option.noConfusion hl
  · rw [List.getLast?_concat] at hl
    cases Option.some.inj hl
    exact ⟨q, rfl⟩

theorem slashesNT_concat (q : List Char) : slashesNT (q ++ [ '/' ]) = q.count '/' := by
  rw [slashesNT, stripTrailing, if_pos (List.getLast?_concat q), List.dropLast_concat]

theorem slashesNT_noslash (p : Path) (hl : p.getLast? ≠ some '/') :
    slashesNT p = p.count '/' := by
  rw [slashesNT, stripTrailing, if_neg hl]

theorem loopStep_concat_none_iff (q : List Char) :
    loopStep (q ++ [ '/' ]) = none ↔ q.count '/' = 0 := by
  rw [loopStep_concat_eval]
  cases h : rlast q '/' with
  | none =>
    constructor
    · intro _
      exact List.count_eq_zero.mpr ((rlast_eq_none_iff q '/').mp h)
    · intro _
      rfl
  | some i =>
    obtain ⟨u, v, rfl, hv, rfl⟩ := rlast_some q '/' i h
    constructor
    · intro hc
      exact Option.noConfusion hc
    · intro hc
      rw [List.count_eq_zero] at hc
      exact absurd (by simp : ('/' : Char) ∈ u ++ '/' :: v) hc

theorem loopStep_concat_some (q r : List Char) (h : loopStep (q ++ [ '/' ]) = some r) :
    ∃ u, r = u ++ [ '/' ] ∧ u.count '/' + 1 = q.count '/' := by
  rw [loopStep_concat_eval] at h
  cases hr : rlast q '/' with
  | none =>
    rw [hr] at h
    exact Option.noConfusion h
  | some i =>
    rw [hr] at h
    obtain ⟨u, v, rfl, hv, rfl⟩ := rlast_some q '/' i hr
    cases Option.some.inj h
    refine ⟨u, ?_, ?_⟩
    · have hsh : (u ++ '/' :: v) ++ [ '/' ] = u ++ '/' :: (v ++ [ '/' ]) := by simp
      rw [hsh, take_decomp]
    · have hv0 : v.count '/' = 0 := List.count_eq_zero_of_not_mem hv
      simp [List.count_append, List.count_cons, hv0]

theorem parentStep_none_iff (p : Path) : parentStep p = none ↔ slashesNT p = 0 := by
  by_cases hl : p.getLast? = some '/'
  · obtain ⟨q, rfl⟩ := exists_concat_of_getLast p '/' hl
    rw [parentStep_eq_loopStep, loopStep_concat_none_iff, slashesNT_concat]
  · rw [parentStep_noslash_eval p hl, slashesNT_noslash p hl]
    cases h : rlast p '/' with
    | none =>
      constructor
      · intro _
        exact List.count_eq_zero.mpr ((rlast_eq_none_iff p '/').mp h)
      · intro _
        rfl
    | some i =>
      obtain ⟨u, v, rfl, hv, rfl⟩ := rlast_some p '/' i h
      constructor
      · intro hc
        exact Option.noConfusion hc
      · intro hc
        rw [List.count_eq_zero] at hc
        exact absurd (by simp : ('/' : Char) ∈ u ++ '/' :: v) hc

theorem parentStep_shape (p r : Path) (h : parentStep p = some r) :
    ∃ u, r = u ++ [ '/' ] ∧ u.count '/' + 1 = slashesNT p := by
  by_cases hl : p.getLast? = some '/'
  · obtain ⟨q, rfl⟩ := exists_concat_of_getLast p '/' hl
    rw [parentStep_eq_loopStep] at h
    obtain ⟨u, rfl, hc⟩ := loopStep_concat_some q r h
    exact ⟨u, rfl, by rw [slashesNT_concat]; exact hc⟩
  · rw [parentStep_noslash_eval p hl] at h
    cases hr : rlast p '/' with
    | none =>
      rw [hr] at h
      exact Option.noConfusion h
    | some i =>
      rw [hr] at h
      obtain ⟨u, v, rfl, hv, rfl⟩ := rlast_some p '/' i hr
      cases Option.some.inj h
      refine ⟨u, (take_decomp u v '/').symm ▸ rfl, ?_⟩
      rw [slashesNT_noslash _ hl]
      have hv0 : v.count '/' = 0 := List.count_eq_zero_of_not_mem hv
      simp [List.count_append, List.count_cons, hv0]

theorem loopIter_concat_isSome (n : Nat) (q : List Char) :
    (loopIter (q ++ [ '/' ]) n).isSome ↔ n ≤ q.count '/' := by
  induction n generalizing q with
  | zero => simp [loopIter]
  | succ n ih =>
    rw [loopIter]
    by_cases h0 : q.count '/' = 0
    · rw [(loopStep_concat_none_iff q).mpr h0]
      simp [h0]
    · have hsome : ∃ r, loopStep (q ++ [ '/' ]) = some r := by
        cases hls : loopStep (q ++ [ '/' ]) with
        | none => exact absurd ((loopStep_concat_none_iff q).mp hls) h0
        | some r => exact ⟨r, rfl⟩
      obtain ⟨r, hr⟩ := hsome
      obtain ⟨u, rfl, hc⟩ := loopStep_concat_some q r hr
      rw [hr, Option.some_bind, ih u]
      omega

/-! ## The steps on well-formed hierarchical paths -/

theorem parentStep_pathOf (segs : List (List Char)) (t : List Char) (ht : segWF t) :
    parentStep (pathOf (segs ++ [t])) = some (pathOf segs) := by
  obtain ⟨B, hB⟩ := pathOf_ends_slash segs
  rw [pathOf_concat, hB]
  have hsh : (B ++ [ '/' ]) ++ (t ++ [ '/' ]) = (B ++ '/' :: t) ++ [ '/' ] := by simp
  rw [hsh, parentStep_concat_eval, rlast_concat B t '/' ht.2]
  show some (((B ++ '/' :: t) ++ [ '/' ]).take (B.length + 1)) = _
  have hsh2 : (B ++ '/' :: t) ++ [ '/' ] = B ++ '/' :: (t ++ [ '/' ]) := by simp
  rw [hsh2, take_decomp]

theorem loopStep_pathOf (segs : List (List Char)) (t : List Char) (ht : segWF t) :
    loopStep (pathOf (segs ++ [t])) = some (pathOf segs) := by
  obtain ⟨B, hB⟩ := pathOf_ends_slash segs
  rw [pathOf_concat, hB]
  have hsh : (B ++ [ '/' ]) ++ (t ++ [ '/' ]) = (B ++ '/' :: t) ++ [ '/' ] := by simp
  rw [hsh, loopStep_concat_eval, rlast_concat B t '/' ht.2]
  show some (((B ++ '/' :: t) ++ [ '/' ]).take (B.length + 1)) = _
  have hsh2 : (B ++ '/' :: t) ++ [ '/' ] = B ++ '/' :: (t ++ [ '/' ]) := by simp
  rw [hsh2, take_decomp]

theorem parentStep_pathOf_noslash (segs : List (List Char)) (t : List Char) (ht : segWF t) :
    parentStep (pathOf segs ++ t) = some (pathOf segs) := by
  obtain ⟨B, hB⟩ := pathOf_ends_slash segs
  rw [hB]
  have hsh : (B ++ [ '/' ]) ++ t = B ++ '/' :: t := by simp
  rw [hsh]
  obtain ⟨tl, c, rfl⟩ : ∃ tl c, t = tl ++ [c] := by
    rcases List.eq_nil_or_concat' t with rfl | ⟨tl, c, rfl⟩
    · exact absurd rfl ht.1
    · exact ⟨tl, c, rfl⟩
  have hc : c ≠ '/' := by
    intro h
    exact ht.2 (h ▸ (by simp : c ∈ tl ++ [c]))
  have hl : (B ++ '/' :: (tl ++ [c])).getLast? ≠ some '/' := by
    have hsh2 : B ++ '/' :: (tl ++ [c]) = (B ++ '/' :: tl) ++ [c] := by simp
    rw [hsh2, List.getLast?_concat]
    intro h
    exact hc (Option.some.inj h)
  rw [parentStep_noslash_eval _ hl, rlast_concat B (tl ++ [c]) '/' ht.2]
  show some ((B ++ '/' :: (tl ++ [c])).take (B.length + 1)) = _
  rw [take_decomp]

theorem loopIter_pathOf (n : Nat) (segs : List (List Char)) (hwf : ∀ s ∈ segs, segWF s)
    (hn : n ≤ segs.length) :
    loopIter (pathOf segs) n = some (pathOf (segs.take (segs.length - n))) := by
  induction n generalizing segs with
  | zero =>
    rw [loopIter, Nat.sub_zero, List.take_length]
  | succ n ih =>
    rcases List.eq_nil_or_concat' segs with rfl | ⟨pre, t, rfl⟩
    · simp at hn
    · rw [loopIter, loopStep_pathOf pre t (hwf t (by simp)), Option.some_bind]
      have hn' : n ≤ pre.length := by
        simp at hn
        omega
      rw [ih pre (fun s hs => hwf s (by simp [hs])) hn']
      have hlen : (pre ++ [t]).length - (n + 1) = pre.length - n := by
        simp
      rw [hlen, List.take_append_of_le_length (by omega)]

theorem gpp_after_first (p : Path) (pre : List (List Char)) (k : Nat)
    (hp : parentStep p = some (pathOf pre)) (hwf : ∀ s ∈ pre, segWF s)
    (hk1 : 1 ≤ k) (hk : k - 1 ≤ pre.length) :
    get_parent_in_path p (k : Int) = some (pathOf (pre.take (pre.length - (k - 1)))) := by
  rw [get_parent_in_path, hp, Option.some_bind]
  by_cases h1 : ((k : Int) > 1)
  · rw [if_pos h1]
    have hton : ((k : Int) - 1).toNat = k - 1 := by omega
    rw [hton, loopIter_pathOf (k - 1) pre hwf hk]
  · rw [if_neg h1]
    have hk1' : k = 1 := by omega
    subst hk1'
    rw [Nat.sub_self, Nat.sub_zero, List.take_length]

theorem gpp_pathOf (S : List (List Char)) (k : Nat) (hwf : ∀ s ∈ S, segWF s)
    (hk1 : 1 ≤ k) (hk : k ≤ S.length) :
    get_parent_in_path (pathOf S) (k : Int) = some (pathOf (S.take (S.length - k))) := by
  rcases List.eq_nil_or_concat' S with rfl | ⟨pre, t, rfl⟩
  · simp at hk
    omega
  · have h := gpp_after_first (pathOf (pre ++ [t])) pre k
      (parentStep_pathOf pre t (hwf t (by simp))) (fun s hs => hwf s (by simp [hs])) hk1
      (by simp at hk ⊢; omega)
    rw [h]
    have hlen : (pre ++ [t]).length - k = pre.length - (k - 1) := by
      simp
      omega
    rw [hlen, List.take_append_of_le_length (by omega)]

theorem gpp_pathOf_noslash (pre : List (List Char)) (t : List Char) (k : Nat)
    (hwf : ∀ s ∈ pre ++ [t], segWF s) (hk1 : 1 ≤ k) (hk : k ≤ pre.length) :
    get_parent_in_path (pathOf pre ++ t) (k : Int)
      = some (pathOf ((pre ++ [t]).take ((pre ++ [t]).length - k))) := by
  have h := gpp_after_first (pathOf pre ++ t) pre k
    (parentStep_pathOf_noslash pre t (hwf t (by simp))) (fun s hs => hwf s (by simp [hs]))
    hk1 (by omega)
  rw [h]
  have hlen : (pre ++ [t]).length - k = pre.length - (k - 1) := by
    simp
    omega
  rw [hlen, List.take_append_of_le_length (by omega)]

/-! ## Success and shape of `get_parent_in_path` -/

theorem gpp_one (p : Path) : get_parent_in_path p 1 = parentStep p := by
  rw [get_parent_in_path]
  cases parentStep p with
  | none => rfl
  | some r => rw [Option.some_bind, if_neg (by omega)]

theorem loopIter_some_shape (n : Nat) (q r : Path) (h : loopIter (q ++ [ '/' ]) n = some r) :
    ∃ u, r = u ++ [ '/' ] := by
  induction n generalizing q with
  | zero =>
    rw [loopIter] at h
    exact ⟨q, (Option.some.inj h).symm⟩
  | succ n ih =>
    rw [loopIter] at h
    cases hls : loopStep (q ++ [ '/' ]) with
    | none =>
      rw [hls] at h
      exact Option.noConfusion h
    | some s =>
      rw [hls, Option.some_bind] at h
      obtain ⟨u, rfl, _⟩ := loopStep_concat_some q s hls
      exact ih u h

theorem gpp_some_shape (p : Path) (levels : Int) (r : Path)
    (h : get_parent_in_path p levels = some r) : ∃ u, r = u ++ [ '/' ] := by
  rw [get_parent_in_path] at h
  cases hp : parentStep p with
  | none =>
    rw [hp] at h
    exact Option.noConfusion h
  | some s =>
    rw [hp, Option.some_bind] at h
    obtain ⟨u, rfl, _⟩ := parentStep_shape p s hp
    by_cases h1 : levels > 1
    · rw [if_pos h1] at h
      exact loopIter_some_shape _ u r h
    · rw [if_neg h1] at h
      exact ⟨u, (Option.some.inj h).symm⟩

theorem gpp_isSome_iff (p : Path) (levels : Int) :
    (get_parent_in_path p levels).isSome ↔ max levels 1 ≤ (slashesNT p : Int) := by
  rw [get_parent_in_path]
  cases hp : parentStep p with
  | none =>
    have h0 : slashesNT p = 0 := (parentStep_none_iff p).mp hp
    simp [h0]
  | some r =>
    obtain ⟨u, rfl, hc⟩ := parentStep_shape p r hp
    rw [Option.some_bind]
    by_cases h1 : levels > 1
    · rw [if_pos h1, loopIter_concat_isSome]
      omega
    · rw [if_neg h1]
      simp only [Option.isSome_some, true_iff]
      omega

theorem loopIter_snoc (p : Path) (n : Nat) :
    loopIter p (n + 1) = (loopIter p n).bind loopStep := by
  induction n generalizing p with
  | zero =>
    rw [loopIter, loopIter]
    simp [loopIter]
  | succ n ih =>
    rw [loopIter]
    conv_rhs => rw [loopIter]
    cases loopStep p with
    | none => simp
    | some q => simp [ih q]

theorem gpp_succ_slash (p : Path) (m : Nat) :
    get_parent_in_path p ((m : Int) + 2) = (get_parent_in_path p ((m : Int) + 1)).bind loopStep := by
  rw [get_parent_in_path, get_parent_in_path]
  cases hp : parentStep p with
  | none => simp
  | some r =>
    rw [Option.some_bind, Option.some_bind, if_pos (by omega : ((m : Int) + 2) > 1)]
    have hton : ((m : Int) + 2 - 1).toNat = m + 1 := by omega
    rw [hton]
    by_cases hm : ((m : Int) + 1) > 1
    · rw [if_pos hm]
      have hton2 : ((m : Int) + 1 - 1).toNat = m := by omega
      rw [hton2, loopIter_snoc]
    · have hm0 : m = 0 := by omega
      subst hm0
      rw [if_neg hm]
      simp [loopIter]

theorem gpp_iterate (p : Path) (k : Nat) (hk : 1 ≤ k) :
    get_parent_in_path p (k : Int) = stepOnce^[k] (some p) := by
  induction k with
  | zero => exact absurd hk (by omega)
  | succ k ih =>
    by_cases hk0 : k = 0
    · subst hk0
      rw [Function.iterate_one, stepOnce, Option.some_bind, Nat.cast_one]
    · have hk1 : 1 ≤ k := by omega
      rw [Function.iterate_succ_apply', ← ih hk1]
      obtain ⟨m, rfl⟩ : ∃ m, k = m + 1 := ⟨k - 1, by omega⟩
      have hc2 : ((m + 1 + 1 : Nat) : Int) = (m : Int) + 2 := by push_cast; ring
      have hc1 : ((m + 1 : Nat) : Int) = (m : Int) + 1 := by push_cast; ring
      rw [hc2, hc1, gpp_succ_slash]
      rw [stepOnce]
      cases hg : get_parent_in_path p ((m : Int) + 1) with
      | none => rfl
      | some r =>
        rw [Option.some_bind, Option.some_bind]
        obtain ⟨u, rfl⟩ := gpp_some_shape p _ r hg
        rw [gpp_one, parentStep_eq_loopStep]

/-! ## Claim C3 -/

/-- **C3.** For every path made of trailing-slash-delimited hierarchical
segments (with or without the trailing slash) containing at least
`levels + 1` slashes, and every `levels ≥ 1`, `get_parent_in_path` returns
the prefix obtained by removing the last `levels` segments, and the returned
string ends with `'/'`. -/
theorem C3_parent_in_path (S : List (List Char)) (p : Path) (levels : Nat)
    (hwf : ∀ s ∈ S, segWF s)
    (hp : p = pathOf S ∨ ∃ pre t, S = pre ++ [t] ∧ p = pathOf pre ++ t)
    (h1 : 1 ≤ levels) (hcnt : levels + 1 ≤ p.count '/') :
    get_parent_in_path p (levels : Int) = some (pathOf (S.take (S.length - levels)))
      ∧ (pathOf (S.take (S.length - levels))).getLast? = some '/' := by
  refine ⟨?_, pathOf_getLast _⟩
  rcases hp with rfl | ⟨pre, t, rfl, rfl⟩
  · have hcount : (pathOf S).count '/' = S.length + 1 := count_pathOf S hwf
    exact gpp_pathOf S levels hwf h1 (by omega)
  · have hcp : (pathOf pre).count '/' = pre.length + 1 :=
      count_pathOf pre (fun s hs => hwf s (by simp [hs]))
    have hct : t.count '/' = 0 := List.count_eq_zero_of_not_mem (hwf t (by simp)).2
    have hcnt' : (pathOf pre ++ t).count '/' = pre.length + 1 := by
      rw [List.count_append, hcp, hct]
    exact gpp_pathOf_noslash pre t levels hwf h1 (by omega)

/-- Witness for C3 at the concrete path `/a/b/` with `levels = 1`. -/
theorem C3_parent_in_path_witness :
    get_parent_in_path (pathOf [[ 'a' ], [ 'b' ]]) ((1 : Nat) : Int)
        = some (pathOf ([[ 'a' ], [ 'b' ]].take ([[ 'a' ], [ 'b' ]].length - 1)))
      ∧ (pathOf ([[ 'a' ], [ 'b' ]].take ([[ 'a' ], [ 'b' ]].length - 1))).getLast? = some '/' :=
  C3_parent_in_path [[ 'a' ], [ 'b' ]] (pathOf [[ 'a' ], [ 'b' ]]) 1
    (by decide) (Or.inl rfl) (by decide) (by decide)

/-! ## Claim C8 -/

/-- **C8, counterexample.**  The claim states that `get_parent_in_path`
terminates without exception precisely when the input has at least
`levels + 1` slash characters (a trailing slash not counted).  The input
`"abc/def"` with `levels = 1` has exactly one slash — however the trailing
slash is counted, `1 < levels + 1` — yet the call succeeds, returning
`"abc/"`: the "only if" direction of the claim fails. -/
theorem C8_counterexample :
    get_parent_in_path [ 'a', 'b', 'c', '/', 'd', 'e', 'f' ] 1
        = some [ 'a', 'b', 'c', '/' ]
      ∧ ([ 'a', 'b', 'c', '/', 'd', 'e', 'f' ] : Path).count '/' = 1
      ∧ slashesNT [ 'a', 'b', 'c', '/', 'd', 'e', 'f' ] = 1
      ∧ ¬ ((1 : Int) + 1 ≤ (1 : Int)) := by
  decide

/-- **C8, amended.**  `get_parent_in_path` is partial: it fails on the root
path `"/"` and on every string whose only slash is a trailing one, and it
terminates without exception precisely when the input contains at least
`max levels 1` slashes, not counting a trailing slash. -/
theorem C8_partiality (p : Path) (levels : Int) :
    get_parent_in_path [ '/' ] levels = none
      ∧ (∀ q : Path, q.count '/' = 0 → get_parent_in_path (q ++ [ '/' ]) levels = none)
      ∧ ((get_parent_in_path p levels).isSome ↔ max levels 1 ≤ (slashesNT p : Int)) := by
  have hnone : ∀ r : Path, slashesNT r = 0 → get_parent_in_path r levels = none := by
    intro r hr
    rw [get_parent_in_path, (parentStep_none_iff r).mpr hr]
    rfl
  refine ⟨hnone [ '/' ] (by decide), ?_, gpp_isSome_iff p levels⟩
  intro q hq
  refine hnone (q ++ [ '/' ]) ?_
  rw [slashesNT_concat]
  exact hq

/-! ## Claim C9 -/

/-- **C9.** On a slash-terminated path with at least `k + 1` slashes,
`get_parent_in_path` at `levels = k ≥ 1` equals `k` successive applications
of `get_parent_in_path` at `levels = 1` (and it succeeds); moreover for every
`levels ≤ 1`, including `0` and negative values, the result equals the one at
`levels = 1`. -/
theorem C9_levels_compose (p : Path) (k : Nat)
    (hsl : p.getLast? = some '/') (hk : 1 ≤ k) (hcnt : k + 1 ≤ p.count '/') :
    get_parent_in_path p (k : Int) = stepOnce^[k] (some p)
      ∧ (get_parent_in_path p (k : Int)).isSome
      ∧ (∀ levels : Int, levels ≤ 1 → get_parent_in_path p levels = get_parent_in_path p 1) := by
  refine ⟨gpp_iterate p k hk, ?_, ?_⟩
  · rw [gpp_isSome_iff]
    obtain ⟨q, rfl⟩ := exists_concat_of_getLast p '/' hsl
    rw [slashesNT_concat]
    have hc : (q ++ [ '/' ]).count '/' = q.count '/' + 1 := by
      simp [List.count_append, List.count_cons]
    omega
  · intro levels hlev
    rw [get_parent_in_path, get_parent_in_path]
    cases parentStep p with
    | none => rfl
    | some r =>
      rw [Option.some_bind, Option.some_bind, if_neg (by omega), if_neg (by omega)]

/-- Witness for C9 at the concrete path `/a/b/` with `k = 2` (and the
`levels ≤ 1` part instantiated at `levels = 0`). -/
theorem C9_levels_compose_witness :
    get_parent_in_path [ '/', 'a', '/', 'b', '/' ] ((2 : Nat) : Int)
        = stepOnce^[2] (some [ '/', 'a', '/', 'b', '/' ])
      ∧ (get_parent_in_path [ '/', 'a', '/', 'b', '/' ] ((2 : Nat) : Int)).isSome
      ∧ get_parent_in_path [ '/', 'a', '/', 'b', '/' ] 0
          = get_parent_in_path [ '/', 'a', '/', 'b', '/' ] 1 :=
  have h := C9_levels_compose [ '/', 'a', '/', 'b', '/' ] 2 (by decide) (by decide) (by decide)
  ⟨h.1, h.2.1, h.2.2 0 (by decide)⟩

/-! ## Claim C2 -/

/-- **C2.** `BaseAPIView.get_object` raises "not found" exactly when the URL
lookup value (read from `kwargs` at `lookup_field` and filtered against the
`pk_field` attribute) matches no object of the filtered queryset, and raises
"permission denied" exactly when the (unique) matched object fails
`check_object_permissions`; a unique match passing the check is returned.
The embedding is a pure function, so no state is modified in any case. -/
theorem C2_get_object (qs : List Obj) (kwargs : List (String × String))
    (lf : String) (pk : Obj → Option String) (perm : Obj → Bool) :
    (BaseAPIView_get_object qs kwargs lf pk perm = GetResult.notFound
        ↔ qs.filter (fun o => pk o == kwargs.lookup lf) = [])
      ∧ (BaseAPIView_get_object qs kwargs lf pk perm = GetResult.permissionDenied
        ↔ ∃ o, qs.filter (fun o => pk o == kwargs.lookup lf) = [o] ∧ perm o = false)
      ∧ (∀ o, qs.filter (fun o => pk o == kwargs.lookup lf) = [o] → perm o = true →
          BaseAPIView_get_object qs kwargs lf pk perm = GetResult.ok o) := by
  unfold BaseAPIView_get_object
  cases hf : qs.filter (fun o => pk o == kwargs.lookup lf) with
  | nil => simp [hf]
  | cons a l =>
    cases l with
    | nil =>
      by_cases hp : perm a = true
      · simp [hf, hp]
      · have hp' : perm a = false := by
          cases hpa : perm a
          · rfl
          · exact absurd hpa hp
        simp [hf, hp']
    | cons b m => simp [hf]

/-! ## Claim C4 -/

/-- **C4.** `BaseAPIView.destroy` performs a soft delete: when `get_object`
resolves an object it returns HTTP 204, the resolved object's `is_active`
field is set to `false` with every other field unchanged, every other object
of the store is untouched, and the object is not removed from the store. -/
theorem C4_destroy (qs : List Obj) (kwargs : List (String × String)) (lf : String)
    (pk : Obj → Option String) (perm : Obj → Bool) (store : List Obj) (o : Obj)
    (hget : BaseAPIView_get_object qs kwargs lf pk perm = GetResult.ok o)
    (hmem : o ∈ store) :
    ∃ store2,
      BaseAPIView_destroy qs kwargs lf pk perm store = some (204, store2)
        ∧ { o with is_active := false } ∈ store2
        ∧ (∀ x ∈ store2, x.id = o.id →
            x.mnemonic = o.mnemonic ∧ x.owner = o.owner ∧ x.parent_type = o.parent_type
              ∧ x.parent_id = o.parent_id
              ∧ x.versioned_object_type = o.versioned_object_type
              ∧ x.versioned_object_id = o.versioned_object_id ∧ x.is_active = false)
        ∧ (∀ x ∈ store, x.id ≠ o.id → x ∈ store2)
        ∧ (∀ x ∈ store2, x.id ≠ o.id → x ∈ store)
        ∧ store2.length = store.length := by
  refine ⟨store.map (fun x => if x.id == o.id then { o with is_active := false } else x),
    ?_, ?_, ?_, ?_, ?_, ?_⟩
  · rw [BaseAPIView_destroy, hget]
  · exact List.mem_map.mpr ⟨o, hmem, by simp⟩
  · intro x hx hid
    obtain ⟨y, hy, hxy⟩ := List.mem_map.mp hx
    by_cases hyid : y.id = o.id
    · rw [if_pos (by simp [hyid])] at hxy
      subst hxy
      simp
    · rw [if_neg (by simp [hyid])] at hxy
      subst hxy
      exact absurd hid hyid
  · intro x hx hid
    refine List.mem_map.mpr ⟨x, hx, ?_⟩
    rw [if_neg (by simp [hid])]
  · intro x hx hid
    obtain ⟨y, hy, hxy⟩ := List.mem_map.mp hx
    by_cases hyid : y.id = o.id
    · rw [if_pos (by simp [hyid])] at hxy
      subst hxy
      simp at hid
    · rw [if_neg (by simp [hyid])] at hxy
      subst hxy
      exact hy
  · exact List.length_map store _

/-- Witness for C4: deleting `objA` (looked up by mnemonic `m1`) from the
store `[objA, objB]`. -/
theorem C4_destroy_witness :
    ∃ store2,
      BaseAPIView_destroy [objA] [("concept", "m1")] "concept"
          (fun o => o.mnemonic) (fun _ => true) [objA, objB] = some (204, store2)
        ∧ { objA with is_active := false } ∈ store2
        ∧ (∀ x ∈ store2, x.id = objA.id →
            x.mnemonic = objA.mnemonic ∧ x.owner = objA.owner
              ∧ x.parent_type = objA.parent_type ∧ x.parent_id = objA.parent_id
              ∧ x.versioned_object_type = objA.versioned_object_type
              ∧ x.versioned_object_id = objA.versioned_object_id ∧ x.is_active = false)
        ∧ (∀ x ∈ [objA, objB], x.id ≠ objA.id → x ∈ store2)
        ∧ (∀ x ∈ store2, x.id ≠ objA.id → x ∈ [objA, objB])
        ∧ store2.length = ([objA, objB] : List Obj).length :=
  C4_destroy [objA] [("concept", "m1")] "concept" (fun o => o.mnemonic) (fun _ => true)
    [objA, objB] objA (by decide) (by decide)

/-! ## Claim C1 -/

/-- **C1.** For an authenticated request (`request.user` present), every
object of the queryset returned by `SubResourceMixin.get_queryset` satisfies
at least one permission clause — owner equals the requesting user, or
`parent_id` is one of the user's organizations, or a clause of
`base_or_clause` — and, when a parent resource was resolved, its
`parent_type`/`parent_id` match that parent (a resource version being
replaced by its `versioned_object`). -/
theorem C1_subresource_scope (st : SubState) (boc : List (Obj → Bool))
    (base_qs : List Obj) (u : UserT) (hu : st.user = some u) :
    ∀ o ∈ SubResourceMixin_get_queryset st boc base_qs,
      (o.owner = some u.id
        ∨ (∃ up, st.userprofile = some up ∧ o.parent_id ∈ up.organizations)
        ∨ (∃ q ∈ boc, q o = true))
      ∧ (∀ pr0, st.parent_resource = some pr0 →
          o.parent_type = (pr0.versionedObject.getD pr0).ctype
            ∧ o.parent_id = (pr0.versionedObject.getD pr0).rid) := by
  intro o ho
  unfold SubResourceMixin_get_queryset at ho
  rw [hu] at ho
  simp only [List.cons_append, List.isEmpty_cons, Bool.false_eq_true, if_false] at ho
  have main : ∀ qs : List Obj,
      (o ∈ qs.filter (fun o =>
        ((fun o => o.owner == some u.id) ::
          ((match st.userprofile with
            | some up => up.organizations.map (fun x => (fun o => o.parent_id == x))
            | none => []) ++ boc)).any (fun q => q o))) →
      o.owner = some u.id
        ∨ (∃ up, st.userprofile = some up ∧ o.parent_id ∈ up.organizations)
        ∨ (∃ q ∈ boc, q o = true) := by
    intro qs hq
    obtain ⟨-, hany⟩ := List.mem_filter.mp hq
    rw [List.any_cons, Bool.or_eq_true] at hany
    rcases hany with howner | hrest
    · exact Or.inl (by simpa using howner)
    · rw [List.any_append, Bool.or_eq_true] at hrest
      rcases hrest with horg | hboc
      · cases hup : st.userprofile with
        | none =>
          rw [hup] at horg
          simp at horg
        | some up =>
          rw [hup] at horg
          rw [List.any_eq_true] at horg
          obtain ⟨q, hqmem, hqo⟩ := horg
          obtain ⟨x, hx, rfl⟩ := List.mem_map.mp hqmem
          have hpx : o.parent_id = x := by simpa using hqo
          exact Or.inr (Or.inl ⟨up, rfl, by rw [hpx]; exact hx⟩)
      · rw [List.any_eq_true] at hboc
        exact Or.inr (Or.inr hboc)
  cases hpr : st.parent_resource with
  | none =>
    rw [hpr] at ho
    refine ⟨main _ ho, ?_⟩
    intro pr0 hpr0
    exact Option.noConfusion hpr0
  | some pr0 =>
    rw [hpr] at ho
    obtain ⟨hq, hmatch⟩ := List.mem_filter.mp ho
    simp only [Bool.and_eq_true, beq_iff_eq] at hmatch
    refine ⟨main _ hq, ?_⟩
    intro pr1 hpr1
    cases Option.some.inj hpr1
    exact ⟨hmatch.1, hmatch.2⟩

/-- Witness for C1 at the concrete state `subStA` (user `u1`, parent
`resSourceVersion`), base clauses `[is_active]`, base queryset
`[objA, objB]`, instantiated at the member `objA` of the result. -/
theorem C1_subresource_scope_witness :
    (objA.owner = some userU.id
        ∨ (∃ up, subStA.userprofile = some up ∧ objA.parent_id ∈ up.organizations)
        ∨ (∃ q ∈ ([fun o => o.is_active] : List (Obj → Bool)), q objA = true))
      ∧ (∀ pr0, subStA.parent_resource = some pr0 →
          objA.parent_type = (pr0.versionedObject.getD pr0).ctype
            ∧ objA.parent_id = (pr0.versionedObject.getD pr0).rid) :=
  C1_subresource_scope subStA [fun o => o.is_active] [objA, objB] userU rfl objA (by decide)

/-! ## Claim C5 -/

/-- **C5, counterexample.**  The claim says the queryset of
`VersionedResourceChildMixin.get_queryset` is always restricted to ids in the
parent version's `child_list_attribute` (with permission filtering applied),
"including in the case where a lookup kwarg is present".  With the lookup
kwarg `concept = "c1"` present, the method returns `self.model.objects.filter(id=lookup)`:
the row `objA` (id `c1`) is returned even though the version's child list is
`["c9"]`, which does not contain `c1`. -/
theorem C5_counterexample :
    VRCM_get_queryset vrcStA (fun _ => some ["c9"]) [("concept", "c1")] "concept" [objA] []
        = some [objA]
      ∧ vrcStA.parent_resource_version = some resSourceVersion
      ∧ ((fun (_ : Resource) => some ["c9"]) resSourceVersion).getD [] = ["c9"]
      ∧ objA.id ∉ (["c9"] : List String) := by
  refine ⟨rfl, rfl, rfl, ?_⟩
  decide

/-- **C5, amended.**  When the lookup kwarg is truthy,
`VersionedResourceChildMixin.get_queryset` returns the model's objects
filtered by that id only — no ancestor scoping and no owner/organization
filtering.  Otherwise it returns the base queryset (`super(SubResourceMixin,
self)` skips the permission filtering of `SubResourceMixin.get_queryset`)
restricted to the ids of the parent resource version's
`child_list_attribute`. -/
theorem C5_child_scope (st : VRCState) (chl : Resource → Option (List String))
    (kwargs : List (String × String)) (lf : String)
    (model_objects base_queryset : List Obj) :
    (lookupTruthy (kwargs.lookup lf) = true →
      ∃ l, VRCM_get_queryset st chl kwargs lf model_objects base_queryset = some l
        ∧ ∀ o : Obj, o ∈ l ↔ o ∈ model_objects ∧ some o.id = kwargs.lookup lf)
      ∧ (lookupTruthy (kwargs.lookup lf) = false →
          ∀ v, st.parent_resource_version = some v →
            ∃ l, VRCM_get_queryset st chl kwargs lf model_objects base_queryset = some l
              ∧ ∀ o : Obj, o ∈ l ↔ o ∈ base_queryset ∧ o.id ∈ (chl v).getD []) := by
  constructor
  · intro htr
    unfold VRCM_get_queryset
    rw [if_pos htr]
    refine ⟨_, rfl, ?_⟩
    intro o
    rw [List.mem_filter]
    simp
  · intro htr v hv
    unfold VRCM_get_queryset
    rw [if_neg (by rw [htr]; exact Bool.false_ne_true), hv]
    refine ⟨_, rfl, ?_⟩
    intro o
    rw [List.mem_filter]
    simp

/-! ## Claim C6 -/

theorem initSub_resolve (env : ViewEnv) (user : Option UserT) (uis : Bool)
    (S : List (List Char)) (k : Nat)
    (hwf : ∀ s ∈ S, segWF s) (hk1 : 1 ≤ k) (hk : k ≤ S.length)
    (hb : (uis && (user.bind (fun u => u.profile)).isSome) = false)
    (hlev : (if env.isListOrCreate then (1 : Int) else 2) = ((k : Nat) : Int)) :
    ∀ st, initSubResource env user uis (pathOf S) = some st →
      st.parent_path_info = some (pathOf (S.take (S.length - k)))
        ∧ st.parent_resource = (if S.length = k then none
            else env.resolvePath (pathOf (S.take (S.length - k)))) := by
  intro st hst
  simp only [initSubResource] at hst
  rw [hb] at hst
  simp only [Bool.false_eq_true, if_false] at hst
  rw [hlev, gpp_pathOf S k hwf hk1 hk] at hst
  dsimp only [] at hst
  by_cases hSk : S.length = k
  · rw [hSk, Nat.sub_self, List.take_zero] at hst
    rw [if_neg (by decide)] at hst
    cases Option.some.inj hst
    refine ⟨by rw [hSk, Nat.sub_self, List.take_zero], ?_⟩
    rw [if_pos hSk]
  · have hne : pathOf (S.take (S.length - k)) ≠ [ '/' ] := by
      intro h
      have htake := (pathOf_eq_root_iff _
        (fun s hs => hwf s (List.mem_of_mem_take hs))).mp h
      have hlen := congrArg List.length htake
      rw [List.length_take, List.length_nil] at hlen
      omega
    have hne2 : pathOf (S.take (S.length - k)) ≠ [] := by
      simp [pathOf]
    rw [if_pos ⟨hne2, hne⟩] at hst
    cases hres : env.resolvePath (pathOf (S.take (S.length - k))) with
    | none =>
      rw [hres] at hst
      exact Option.noConfusion hst
    | some r =>
      rw [hres] at hst
      cases Option.some.inj hst
      exact ⟨rfl, by rw [if_neg hSk]⟩

/-- **C6.** In `SubResourceMixin.initialize`, unless `user_is_self` holds
together with a user profile, the parent path is obtained by removing exactly
one trailing segment for a list/create view and exactly two otherwise, and
`parent_resource` stays `None` when that parent path is the root `/`
(otherwise it is the object resolved at the parent path). -/
theorem C6_init_levels (env : ViewEnv) (user : Option UserT) (uis : Bool)
    (S : List (List Char))
    (hwf : ∀ s ∈ S, segWF s)
    (hns : ¬ (uis = true ∧ (user.bind (fun u => u.profile)).isSome = true))
    (hk : (if env.isListOrCreate then 1 else 2) ≤ S.length) :
    ∀ st, initSubResource env user uis (pathOf S) = some st →
      st.parent_path_info
          = some (pathOf (S.take (S.length - (if env.isListOrCreate then 1 else 2))))
        ∧ st.parent_resource
            = (if S.length = (if env.isListOrCreate then 1 else 2) then none
               else env.resolvePath
                 (pathOf (S.take (S.length - (if env.isListOrCreate then 1 else 2))))) := by
  have hb : (uis && (user.bind (fun u => u.profile)).isSome) = false := by
    cases uis with
    | false => rfl
    | true =>
      cases h2 : (user.bind (fun u => u.profile)).isSome with
      | false => rfl
      | true => exact absurd ⟨rfl, h2⟩ hns
  cases hLC : env.isListOrCreate with
  | false =>
    have hk2 : 2 ≤ S.length := by
      rw [hLC] at hk
      simpa using hk
    simp only [Bool.false_eq_true, if_false]
    exact initSub_resolve env user uis S 2 hwf (by omega) hk2 hb
      (by rw [hLC]; norm_num)
  | true =>
    have hk1 : 1 ≤ S.length := by
      rw [hLC] at hk
      simpa using hk
    simp only [if_true]
    exact initSub_resolve env user uis S 1 hwf (by omega) hk1 hb
      (by rw [hLC]; norm_num)

/-- Witness for C6: a non-list view (`envA`, two segments removed) on the
path `/o/s/v/`; the parent path is `/o/`, which resolves to `resSource`.  The
state reached by `initialize` is spelled out concretely. -/
theorem C6_init_levels_witness :
    ({ user := some userU, userprofile := userU.profile, user_is_self := false,
       parent_path_info := some [ '/', 'o', '/' ],
       parent_resource := some resSource } : SubState).parent_path_info
          = some (pathOf ([[ 'o' ], [ 's' ], [ 'v' ]].take
              ([[ 'o' ], [ 's' ], [ 'v' ]].length - (if envA.isListOrCreate then 1 else 2))))
        ∧ ({ user := some userU, userprofile := userU.profile, user_is_self := false,
             parent_path_info := some [ '/', 'o', '/' ],
             parent_resource := some resSource } : SubState).parent_resource
            = (if [[ 'o' ], [ 's' ], [ 'v' ]].length = (if envA.isListOrCreate then 1 else 2)
               then none
               else envA.resolvePath
                 (pathOf ([[ 'o' ], [ 's' ], [ 'v' ]].take
                   ([[ 'o' ], [ 's' ], [ 'v' ]].length
                     - (if envA.isListOrCreate then 1 else 2))))) :=
  C6_init_levels envA (some userU) false [[ 'o' ], [ 's' ], [ 'v' ]]
    (by decide) (by decide) (by decide)
    { user := some userU, userprofile := userU.profile, user_is_self := false,
      parent_path_info := some [ '/', 'o', '/' ], parent_resource := some resSource }
    (by decide)

/-! ## Claim C7 -/

/-- **C7.** `ResourceVersionMixin.initialize` resolves the versioned object
from the parent path (one segment up, the default `levels = 1`), and
`get_queryset` keeps only rows whose `versioned_object_type` and
`versioned_object_id` match that resolved object — i.e. only its versions. -/
theorem C7_resource_version (env : ViewEnv) (path : Path) (st : RVState)
    (base_queryset : List Obj)
    (hinit : initResourceVersion env path = some st) :
    (∃ vp, get_parent_in_path path 1 = some vp
        ∧ st.versioned_object_path_info = some vp
        ∧ st.versioned_object = env.resolvePath vp)
      ∧ (∀ qs, RVM_get_queryset st base_queryset = some qs →
          ∀ o ∈ qs, ∀ vo, st.versioned_object = some vo →
            o.versioned_object_type = vo.ctype ∧ o.versioned_object_id = vo.rid) := by
  unfold initResourceVersion at hinit
  cases hg : get_parent_in_path path 1 with
  | none =>
    rw [hg] at hinit
    exact Option.noConfusion hinit
  | some vp =>
    rw [hg] at hinit
    dsimp only [] at hinit
    cases hres : env.resolvePath vp with
    | none =>
      rw [hres] at hinit
      exact Option.noConfusion hinit
    | some vo =>
      rw [hres] at hinit
      cases Option.some.inj hinit
      refine ⟨⟨vp, rfl, rfl, hres.symm⟩, ?_⟩
      intro qs hqs o ho vo2 hvo2
      cases Option.some.inj hvo2
      unfold RVM_get_queryset at hqs
      cases Option.some.inj hqs
      have hpred := (List.mem_filter.mp ho).2
      simp only [Bool.and_eq_true, beq_iff_eq] at hpred
      exact hpred

/-- Witness for C7 on the path `/o/v/`: the versioned object path is `/o/`,
resolving to `resSource`; the queryset is filtered over `[objA, objB]`. -/
theorem C7_resource_version_witness :
    (∃ vp, get_parent_in_path [ '/', 'o', '/', 'v', '/' ] 1 = some vp
        ∧ ({ versioned_object_path_info := some [ '/', 'o', '/' ],
             versioned_object := some resSource } : RVState).versioned_object_path_info
            = some vp
        ∧ ({ versioned_object_path_info := some [ '/', 'o', '/' ],
             versioned_object := some resSource } : RVState).versioned_object
            = envA.resolvePath vp)
      ∧ (∀ qs, RVM_get_queryset
            { versioned_object_path_info := some [ '/', 'o', '/' ],
              versioned_object := some resSource } [objA, objB] = some qs →
          ∀ o ∈ qs, ∀ vo,
            ({ versioned_object_path_info := some [ '/', 'o', '/' ],
               versioned_object := some resSource } : RVState).versioned_object = some vo →
            o.versioned_object_type = vo.ctype ∧ o.versioned_object_id = vo.rid) :=
  C7_resource_version envA [ '/', 'o', '/', 'v', '/' ]
    { versioned_object_path_info := some [ '/', 'o', '/' ],
      versioned_object := some resSource } [objA, objB] (by decide)

/-! ## Claim C10 -/

/-- **C10.** After `VersionedResourceChildMixin.initialize` completes, the
stored `parent_resource` never has a `versioned_object` attribute (given the
data-model invariant that a version's `versioned_object` is a plain
resource), and `parent_resource_version` is the version resolved from the
URL path when that path addressed a version, and otherwise
`get_latest_version_of` applied to the resolved versioned object. -/
theorem C10_vrc_init (env : VRCEnv) (path : Path) (st : VRCState)
    (hwf : ∀ p r, env.resolvePath p = some r →
      ∀ b, r.versionedObject = some b → b.versionedObject = none)
    (hst : initVersionedChild env path = some st) :
    (∀ p, st.parent_resource = some p → p.versionedObject = none)
      ∧ (∀ pp r, st.parent_path_info = some pp → pp ≠ [] → pp ≠ [ '/' ] →
          env.resolvePath pp = some r →
            (r.versionedObject.isSome = true → st.parent_resource_version = some r
              ∧ st.parent_resource = r.versionedObject)
              ∧ (r.versionedObject = none →
                  st.parent_resource_version = env.latestVersionOf (some r)
                    ∧ st.parent_resource = some r)) := by
  unfold initVersionedChild at hst
  cases hg : get_parent_in_path path (vrcLevels env) with
  | none =>
    rw [hg] at hst
    exact Option.noConfusion hst
  | some pp =>
    rw [hg] at hst
    dsimp only [] at hst
    by_cases hcond : pp ≠ [] ∧ pp ≠ [ '/' ]
    · rw [if_pos hcond] at hst
      cases hres : env.resolvePath pp with
      | none =>
        rw [hres] at hst
        exact Option.noConfusion hst
      | some r =>
        rw [hres] at hst
        simp only [Option.map_some'] at hst
        cases hvo : r.versionedObject with
        | some vo =>
          rw [hvo] at hst
          cases Option.some.inj hst
          refine ⟨?_, ?_⟩
          · intro p hp
            cases Option.some.inj hp
            exact hwf pp r hres vo hvo
          · intro pp2 r2 hpp2 hne1 hne2 hres2
            cases Option.some.inj hpp2
            rw [hres] at hres2
            cases Option.some.inj hres2
            refine ⟨fun _ => ⟨rfl, hvo.symm⟩, ?_⟩
            intro hnone
            rw [hvo] at hnone
            exact Option.noConfusion hnone
        | none =>
          rw [hvo] at hst
          cases Option.some.inj hst
          refine ⟨?_, ?_⟩
          · intro p hp
            cases Option.some.inj hp
            exact hvo
          · intro pp2 r2 hpp2 hne1 hne2 hres2
            cases Option.some.inj hpp2
            rw [hres] at hres2
            cases Option.some.inj hres2
            refine ⟨?_, fun _ => ⟨rfl, rfl⟩⟩
            intro hsome
            rw [hvo] at hsome
            exact absurd hsome (by simp)
    · rw [if_neg hcond] at hst
      dsimp only [] at hst
      cases Option.some.inj hst
      refine ⟨?_, ?_⟩
      · intro p hp
        exact Option.noConfusion hp
      · intro pp2 r2 hpp2 hne1 hne2 hres2
        cases Option.some.inj hpp2
        exact absurd ⟨hne1, hne2⟩ hcond

/-- Witness for C10 on the path `/o/c/` in the list-view context `vrcEnvA`:
the parent path `/o/` resolves to the version `resSourceVersion`, so
`parent_resource` becomes `resSource` and `parent_resource_version` the
resolved version. -/
theorem C10_vrc_init_witness :
    (∀ p, vrcStA.parent_resource = some p → p.versionedObject = none)
      ∧ (∀ pp r, vrcStA.parent_path_info = some pp → pp ≠ [] → pp ≠ [ '/' ] →
          vrcEnvA.resolvePath pp = some r →
            (r.versionedObject.isSome = true → vrcStA.parent_resource_version = some r
              ∧ vrcStA.parent_resource = r.versionedObject)
              ∧ (r.versionedObject = none →
                  vrcStA.parent_resource_version = vrcEnvA.latestVersionOf (some r)
                    ∧ vrcStA.parent_resource = some r)) :=
  C10_vrc_init vrcEnvA [ '/', 'o', '/', 'c', '/' ] vrcStA
    (by
      intro p r h b hb
      by_cases hp : p = [ '/', 'o', '/' ]
      · subst hp
        simp only [vrcEnvA, if_pos rfl] at h
        cases Option.some.inj h
        simp only [resSourceVersion, Resource.versionedObject] at hb
        cases Option.some.inj hb
        rfl
      · simp only [vrcEnvA] at h
        rw [if_neg hp] at h
        exact Option.noConfusion h)
    (by decide)

/-- Witness for C2 at a concrete queryset `[objA, objB]` with lookup
mnemonic `m1`. -/
theorem C2_get_object_witness :
    (BaseAPIView_get_object [objA, objB] [("concept", "m1")] "concept"
        (fun o => o.mnemonic) (fun _ => true) = GetResult.notFound
      ↔ ([objA, objB] : List Obj).filter
          (fun o => (fun o => o.mnemonic) o == ([("concept", "m1")] : List (String × String)).lookup "concept") = [])
      ∧ (BaseAPIView_get_object [objA, objB] [("concept", "m1")] "concept"
          (fun o => o.mnemonic) (fun _ => true) = GetResult.permissionDenied
        ↔ ∃ o, ([objA, objB] : List Obj).filter
            (fun o => (fun o => o.mnemonic) o == ([("concept", "m1")] : List (String × String)).lookup "concept") = [o]
          ∧ (fun (_ : Obj) => true) o = false)
      ∧ (∀ o, ([objA, objB] : List Obj).filter
            (fun o => (fun o => o.mnemonic) o == ([("concept", "m1")] : List (String × String)).lookup "concept") = [o]
          → (fun (_ : Obj) => true) o = true →
          BaseAPIView_get_object [objA, objB] [("concept", "m1")] "concept"
            (fun o => o.mnemonic) (fun _ => true) = GetResult.ok o) :=
  C2_get_object [objA, objB] [("concept", "m1")] "concept" (fun o => o.mnemonic) (fun _ => true)

/-- Witness for C5 at the state `vrcStA` with no lookup kwarg: the result is
the base queryset `[objA, objB]` restricted to the child list `["c1"]`. -/
theorem C5_child_scope_witness :
    (lookupTruthy (([] : List (String × String)).lookup "concept") = true →
      ∃ l, VRCM_get_queryset vrcStA (fun _ => some ["c1"]) [] "concept" [objA] [objA, objB]
          = some l
        ∧ ∀ o : Obj, o ∈ l ↔ o ∈ [objA] ∧ some o.id = ([] : List (String × String)).lookup "concept")
      ∧ (lookupTruthy (([] : List (String × String)).lookup "concept") = false →
          ∀ v, vrcStA.parent_resource_version = some v →
            ∃ l, VRCM_get_queryset vrcStA (fun _ => some ["c1"]) [] "concept" [objA] [objA, objB]
                = some l
              ∧ ∀ o : Obj, o ∈ l ↔ o ∈ [objA, objB]
                  ∧ o.id ∈ ((fun (_ : Resource) => some ["c1"]) v).getD []) :=
  C5_child_scope vrcStA (fun _ => some ["c1"]) [] "concept" [objA] [objA, objB]

/-- Witness for C8 at the input `"/a/"` with `levels = 2`:
`slashesNT "/a/" = 1 < max 2 1`, and the call indeed fails. -/
theorem C8_partiality_witness :
    get_parent_in_path [ '/' ] 2 = none
      ∧ (∀ q : Path, q.count '/' = 0 → get_parent_in_path (q ++ [ '/' ]) 2 = none)
      ∧ ((get_parent_in_path [ '/', 'a', '/' ] 2).isSome
          ↔ max 2 1 ≤ (slashesNT [ '/', 'a', '/' ] : Int)) :=
  C8_partiality [ '/', 'a', '/' ] 2

end OclApi

